import Mathlib

/-!
Verification of the QuantEngine statistical core against its specification.

The TypeScript sources (src/utils/math.ts, src/core/tails.ts,
src/core/summaryStats.ts, src/core/tests.ts) are shallowly embedded here.
JavaScript `number` arithmetic is modelled as exact real arithmetic over `ℝ`;
`Math.exp`, `Math.log`, `Math.sqrt` become `Real.exp`, `Real.log`, `Real.sqrt`.
A JavaScript `NaN` result that a function produces deliberately as a
"cannot compute" sentinel is modelled with `Option` (`none` = NaN); junk
`NaN`/division-by-zero values on paths no claim touches are modelled by the
Lean convention `x / 0 = 0` and `Real.log x = 0` for `x ≤ 0`, noted inline.
`[...data].sort((a, b) => a - b)` is modelled by `List.insertionSort (· ≤ ·)`
(for a total order, any sorted permutation of the data is this list).
Thrown exceptions are modelled with `Except`.
-/

noncomputable section

open scoped Classical

/-- Model of the record returned by the statistical tests in src/core/tests.ts
(`StatisticalTest` in src/utils/types.ts).  The boolean `rejectNull` is
modelled as a `Prop`. -/
structure StatisticalTest where
  name : String
  statistic : ℝ
  pValue : ℝ
  rejectNull : Prop
  alpha : ℝ

/-- Model of the `SummaryStats` record of src/utils/types.ts. -/
structure SummaryStats where
  count : ℕ
  mean : ℝ
  variance : ℝ
  stdDev : ℝ
  median : ℝ
  skewness : ℝ
  kurtosis : ℝ
  min : ℝ
  max : ℝ
  p5 : ℝ
  p25 : ℝ
  p50 : ℝ
  p75 : ℝ
  p95 : ℝ

/-- Model of the `TailMetrics` record of src/utils/types.ts.  The Hill index
is an `Option ℝ` because `computeHillIndex` returns the NaN sentinel
(modelled `none`) when there is not enough tail data. -/
structure TailMetrics where
  var95 : ℝ
  var99 : ℝ
  cvar95 : ℝ
  cvar99 : ℝ
  hillIndex : Option ℝ

/-- Embedding of `quantile(sortedArr, p)` from src/utils/math.ts.

```js
if (sortedArr.length === 0) return NaN;
if (p <= 0) return sortedArr[0];
if (p >= 1) return sortedArr[sortedArr.length - 1];
const index = p * (sortedArr.length - 1);
const lower = Math.floor(index);
const upper = Math.ceil(index);
const weight = index - lower;
return sortedArr[lower] * (1 - weight) + sortedArr[upper] * weight;
```

The NaN on the empty array is modelled as the junk value 0 (no claim touches
it); `index`, `lower`, `upper`, `weight` are inlined. -/
def quantile (sortedArr : List ℝ) (p : ℝ) : ℝ :=
  if sortedArr.length = 0 then 0
  else if p ≤ 0 then sortedArr.getD 0 0
  else if 1 ≤ p then sortedArr.getD (sortedArr.length - 1) 0
  else
    sortedArr.getD (⌊p * ((sortedArr.length : ℝ) - 1)⌋).toNat 0 *
        (1 - (p * ((sortedArr.length : ℝ) - 1) -
          ((⌊p * ((sortedArr.length : ℝ) - 1)⌋ : ℤ) : ℝ))) +
      sortedArr.getD (⌈p * ((sortedArr.length : ℝ) - 1)⌉).toNat 0 *
        (p * ((sortedArr.length : ℝ) - 1) -
          ((⌊p * ((sortedArr.length : ℝ) - 1)⌋ : ℤ) : ℝ))

/-- Embedding of `computeVaR(sorted, confidence)` from src/core/tails.ts:
`alpha = 1 - confidence; return -quantile(sorted, alpha)`. -/
def computeVaR (sorted : List ℝ) (confidence : ℝ) : ℝ :=
  -quantile sorted (1 - confidence)

/-- Embedding of `computeCVaR(sorted, confidence)` from src/core/tails.ts:
`varIndex = Math.floor(alpha * n)`; if it is 0 return `-sorted[0]`, else
return the negated mean of `sorted[0..varIndex-1]`.  When `varIndex` is
negative the JS loop body never runs and `-0/varIndex = 0`, matched here by
`Int.toNat` giving an empty range and `0 / varIndex = 0`. -/
def computeCVaR (sorted : List ℝ) (confidence : ℝ) : ℝ :=
  let n := sorted.length
  let varIndex : ℤ := ⌊(1 - confidence) * (n : ℝ)⌋
  if varIndex = 0 then -sorted.getD 0 0
  else -(((List.range varIndex.toNat).map fun i => sorted.getD i 0).sum) / (varIndex : ℝ)

/-- The tail-count `k = Math.max(Math.floor(Math.sqrt(n)), Math.floor(0.05 * n), 20)`
of `computeHillIndex`/`computeLeftTailIndex` in src/core/tails.ts.
`Math.floor(Math.sqrt n) = Nat.sqrt n` and `Math.floor(0.05 * n) = n / 20`
(Nat division) exactly. -/
def hillK (n : ℕ) : ℕ :=
  max (max (Nat.sqrt n) (n / 20)) 20

/-- The capped tail count `kActual = Math.min(k, Math.floor(n * 0.2))` from
src/core/tails.ts (`Math.floor(0.2 * n) = n / 5` in Nat division exactly). -/
def hillKActual (n : ℕ) : ℕ :=
  min (hillK n) (n / 5)

/-- Embedding of `computeHillIndex(sorted)` from src/core/tails.ts.  The
`NaN` returned when `kActual < 5` is modelled as `none`; otherwise the Hill
estimator over the top `kActual` order statistics is returned (with
`Math.log` modelled by `Real.log`). -/
def computeHillIndex (sorted : List ℝ) : Option ℝ :=
  let n := sorted.length
  let kActual := hillKActual n
  if kActual < 5 then none
  else
    let threshold := sorted.getD (n - kActual) 0
    some ((((List.range kActual).map fun j =>
      Real.log (sorted.getD (n - kActual + j) 0 / threshold)).sum) / (kActual : ℝ))

/-- Embedding of `computeLeftTailIndex(sorted)` from src/core/tails.ts.  Same
`kActual < 5 → NaN` guard (modelled `none`); the sum only accumulates terms
with `-sorted[i] > 0`, as in the source. -/
def computeLeftTailIndex (sorted : List ℝ) : Option ℝ :=
  let n := sorted.length
  let kActual := hillKActual n
  if kActual < 5 then none
  else
    let threshold := -sorted.getD (kActual - 1) 0
    some ((((List.range kActual).map fun i =>
      if 0 < -sorted.getD i 0 then Real.log (-sorted.getD i 0 / threshold) else 0).sum) /
        (kActual : ℝ))

/-- Embedding of `computeTailMetrics(data)` from src/core/tails.ts. -/
def computeTailMetrics (data : List ℝ) : TailMetrics :=
  let sorted := List.insertionSort (· ≤ ·) data
  ⟨computeVaR sorted 0.95, computeVaR sorted 0.99,
    computeCVaR sorted 0.95, computeCVaR sorted 0.99,
    computeHillIndex sorted⟩

/-- The running state `(n, mean, m2)` of Welford's loop in
src/core/summaryStats.ts. -/
structure WelfordState where
  n : ℕ
  mean : ℝ
  m2 : ℝ

/-- One iteration of the `for (const x of data)` loop of `welfordAlgorithm`:
`n++; delta = x - mean; mean += delta / n; delta2 = x - mean; m2 += delta * delta2`. -/
def welfordStep (s : WelfordState) (x : ℝ) : WelfordState :=
  let n := s.n + 1
  let delta := x - s.mean
  let mean := s.mean + delta / (n : ℝ)
  let delta2 := x - mean
  ⟨n, mean, s.m2 + delta * delta2⟩

/-- The result record of `welfordAlgorithm` in src/core/summaryStats.ts. -/
structure WelfordResult where
  mean : ℝ
  variance : ℝ
  m2 : ℝ

/-- Embedding of `welfordAlgorithm(data)` from src/core/summaryStats.ts:
single pass over the data, then `variance = n > 1 ? m2 / (n - 1) : 0`. -/
def welfordAlgorithm (data : List ℝ) : WelfordResult :=
  let s := data.foldl welfordStep ⟨0, 0, 0⟩
  ⟨s.mean, if 1 < s.n then s.m2 / ((s.n : ℝ) - 1) else 0, s.m2⟩

/-- Embedding of `computeSkewness(data, mean, stdDev)` from
src/core/summaryStats.ts. -/
def computeSkewness (data : List ℝ) (mean stdDev : ℝ) : ℝ :=
  let n := data.length
  if n < 3 ∨ stdDev = 0 then 0
  else
    let m3 := (data.map fun x => ((x - mean) / stdDev) ^ 3).sum
    m3 / (n : ℝ) * (Real.sqrt ((n : ℝ) * ((n : ℝ) - 1)) / ((n : ℝ) - 2))

/-- Embedding of `computeKurtosis(data, mean, stdDev)` from
src/core/summaryStats.ts. -/
def computeKurtosis (data : List ℝ) (mean stdDev : ℝ) : ℝ :=
  let n := data.length
  if n < 4 ∨ stdDev = 0 then 0
  else
    let m4 := (data.map fun x => ((x - mean) / stdDev) ^ 4).sum
    ((n : ℝ) - 1) / (((n : ℝ) - 2) * ((n : ℝ) - 3)) *
      (((n : ℝ) + 1) * (m4 / (n : ℝ)) - 3 * ((n : ℝ) - 1))

/-- The non-empty branch of `computeSummaryStats(data)` from
src/core/summaryStats.ts: Welford mean/variance, `stdDev = Math.sqrt(variance)`,
sorted copy, linear-interpolation quantiles, skewness and kurtosis. -/
def summaryStatsCore (data : List ℝ) : SummaryStats :=
  let n := data.length
  let w := welfordAlgorithm data
  let stdDev := Real.sqrt w.variance
  let sorted := List.insertionSort (· ≤ ·) data
  let median := quantile sorted 0.5
  ⟨n, w.mean, w.variance, stdDev, median,
    computeSkewness data w.mean stdDev, computeKurtosis data w.mean stdDev,
    sorted.getD 0 0, sorted.getD (n - 1) 0,
    quantile sorted 0.05, quantile sorted 0.25, median,
    quantile sorted 0.75, quantile sorted 0.95⟩

/-- Embedding of `computeSummaryStats(data)` from src/core/summaryStats.ts.
`throw new Error('Cannot compute statistics on empty data')` on the empty
sample is modelled with `Except.error` carrying the message. -/
def computeSummaryStats (data : List ℝ) : Except String SummaryStats :=
  if data.length = 0 then Except.error "Cannot compute statistics on empty data"
  else Except.ok (summaryStatsCore data)

/-- Embedding of `erf(x)` from src/utils/math.ts (Abramowitz-Stegun
approximation):

```js
const sign = x >= 0 ? 1 : -1; x = Math.abs(x);
const t = 1.0 / (1.0 + p * x);
const y = 1.0 - (((((a5 * t + a4) * t) + a3) * t + a2) * t + a1) * t * Math.exp(-x * x);
return sign * y;
``` -/
def erf (x : ℝ) : ℝ :=
  (if 0 ≤ x then (1 : ℝ) else -1) *
    (1 - (((((1.061405429 * (1 / (1 + 0.3275911 * |x|)) + -1.453152027) *
          (1 / (1 + 0.3275911 * |x|)) + 1.421413741) *
          (1 / (1 + 0.3275911 * |x|)) + -0.284496736) *
          (1 / (1 + 0.3275911 * |x|)) + 0.254829592) *
        (1 / (1 + 0.3275911 * |x|)) * Real.exp (-(|x| * |x|))))

/-- Embedding of `normCDF(x) = 0.5 * (1 + erf(x / Math.sqrt(2)))` from
src/utils/math.ts. -/
def normCDF (x : ℝ) : ℝ :=
  0.5 * (1 + erf (x / Real.sqrt 2))

/-- The Lanczos branch of `logGamma` (src/utils/math.ts, `x >= 0.5` case,
after the `x -= 1` shift; g = 7, nine coefficients). -/
def logGammaCore (x : ℝ) : ℝ :=
  Real.log (Real.sqrt (2 * Real.pi)) +
    Real.log (0.99999999999980993 +
      676.5203681218851 / ((x - 1) + 1) +
      -1259.1392167224028 / ((x - 1) + 2) +
      771.32342877765313 / ((x - 1) + 3) +
      -176.61502916214059 / ((x - 1) + 4) +
      12.507343278686905 / ((x - 1) + 5) +
      -0.13857109526572012 / ((x - 1) + 6) +
      9.9843695780195716e-6 / ((x - 1) + 7) +
      1.5056327351493116e-7 / ((x - 1) + 8)) +
    ((x - 1) + 0.5) * Real.log ((x - 1) + 7 + 0.5) - ((x - 1) + 7 + 0.5)

/-- Embedding of `logGamma(x)` from src/utils/math.ts.  `NaN` for `x <= 0` is
modelled as the junk value 0 (no claim depends on it); the reflection branch
`x < 0.5` calls `logGamma(1 - x)` with `1 - x > 0.5`, i.e. `logGammaCore`. -/
def logGamma (x : ℝ) : ℝ :=
  if x ≤ 0 then 0
  else if x < 0.5 then Real.log (Real.pi / Real.sin (Real.pi * x)) - logGammaCore (1 - x)
  else logGammaCore x

/-- One double-step of the continued-fraction loop of `betaInc`
(src/utils/math.ts), fuelled by the remaining iteration count; `m` is the
loop counter `i`, and the state is `(f, c, d)`.  The `break` on
`|del - 1| < 3e-7` is taken after updating `f`. -/
def betaIncGo (x a b : ℝ) : ℕ → ℕ → ℝ → ℝ → ℝ → ℝ
  | 0, _, f, _, _ => f
  | fuel + 1, m, f, c, d =>
    let aa := (m : ℝ) * (b - m) * x / ((a + 2 * m - 1) * (a + 2 * m))
    let d1 := 1 / (1 + aa * d)
    let c1 := 1 + aa / c
    let f1 := f * d1 * c1
    let aa2 := -(a + m) * (a + b + m) * x / ((a + 2 * m) * (a + 2 * m + 1))
    let d2 := 1 / (1 + aa2 * d1)
    let c2 := 1 + aa2 / c1
    let del := d2 * c2
    let f2 := f1 * del
    if |del - 1| < 3e-7 then f2 else betaIncGo x a b fuel (m + 1) f2 c2 d2

/-- Embedding of `betaInc(x, a, b)` from src/utils/math.ts (continued
fraction, `MAXIT = 100`).  `NaN` outside `[0, 1]` is modelled as junk 0. -/
def betaInc (x a b : ℝ) : ℝ :=
  if x < 0 ∨ 1 < x then 0
  else if x = 0 then 0
  else if x = 1 then 1
  else
    Real.exp (Real.log x * a + Real.log (1 - x) * b -
        (logGamma a + logGamma b - logGamma (a + b))) / a *
      betaIncGo x a b 100 1 1 1 (1 / (1 - (a + b) * x / (a + 1)))

/-- Embedding of `chi2CDF(x, df)` from src/utils/math.ts; `NaN` for `x < 0`
or `df <= 0` is modelled as junk 0. -/
def chi2CDF (x df : ℝ) : ℝ :=
  if x < 0 ∨ df ≤ 0 then 0
  else if x = 0 then 0
  else betaInc (x / (x + df)) (x / 2) (df / 2)

/-- Embedding of `jarqueBeraTest(data, skewness, kurtosis, alpha)` from
src/core/tests.ts: `jb = (n / 6) * (S^2 + K^2 / 4)`,
`pValue = 1 - chi2CDF(jb, 2)`, `rejectNull = pValue < alpha`. -/
def jarqueBeraTest (data : List ℝ) (skewness kurtosis alpha : ℝ) : StatisticalTest :=
  let n := data.length
  let jb := ((n : ℝ) / 6) * (skewness ^ 2 + kurtosis ^ 2 / 4)
  let pValue := 1 - chi2CDF jb 2
  ⟨"Jarque-Bera", jb, pValue, pValue < alpha, alpha⟩

/-- The body of the `for (let i = 0; i < n; i++)` loop of
`kolmogorovSmirnovTest` in src/core/tests.ts, updating the pair
`(dPlus, dMinus)`:
`dPlus = max(dPlus, (i+1)/n - F(x_i))`, `dMinus = max(dMinus, F(x_i) - i/n)`. -/
def ksStep (sorted : List ℝ) (n : ℕ) (mu sigma : ℝ) (pr : ℝ × ℝ) (i : ℕ) : ℝ × ℝ :=
  (max pr.1 (((i : ℝ) + 1) / (n : ℝ) - normCDF ((sorted.getD i 0 - mu) / sigma)),
   max pr.2 (normCDF ((sorted.getD i 0 - mu) / sigma) - (i : ℝ) / (n : ℝ)))

/-- The series loop of `ksAsymptoticPValue` (src/core/tests.ts): up to 100
terms `2 * (-1)^(k-1) * exp(-2 k² λ²)` starting at `k = 1`, stopping early
once `|term| < 1e-10` (after adding the term). -/
def ksGo (lambda : ℝ) : ℕ → ℕ → ℝ → ℝ
  | 0, _, sum => sum
  | fuel + 1, k, sum =>
    let term := 2 * (-1 : ℝ) ^ (k - 1) * Real.exp (-2 * (k : ℝ) ^ 2 * lambda ^ 2)
    if |term| < 1e-10 then sum + term else ksGo lambda fuel (k + 1) (sum + term)

/-- Embedding of `ksAsymptoticPValue(d, n)` from src/core/tests.ts:
`λ = (√n + 0.12 + 0.11/√n) * d`, series summed with early stopping, result
clamped to `[0, 1]` by `Math.max(0, Math.min(1, sum))`. -/
def ksAsymptoticPValue (d : ℝ) (n : ℕ) : ℝ :=
  max 0 (min 1 (ksGo ((Real.sqrt n + 0.12 + 0.11 / Real.sqrt n) * d) 100 1 0))

/-- Embedding of `kolmogorovSmirnovTest(data, mu, sigma, alpha)` from
src/core/tests.ts. -/
def kolmogorovSmirnovTest (data : List ℝ) (mu sigma alpha : ℝ) : StatisticalTest :=
  let n := data.length
  let sorted := List.insertionSort (· ≤ ·) data
  let dpm := (List.range n).foldl (ksStep sorted n mu sigma) (0, 0)
  let d := max dpm.1 dpm.2
  let pValue := ksAsymptoticPValue d n
  ⟨"Kolmogorov-Smirnov", d, pValue, pValue < alpha, alpha⟩

/-- Embedding of `andersonDarlingTest(data, mu, sigma, alpha)` from
src/core/tests.ts.  Note that `rejectNull` compares the adjusted statistic
with the fixed critical value 0.787, not the p-value with `alpha`. -/
def andersonDarlingTest (data : List ℝ) (mu sigma alpha : ℝ) : StatisticalTest :=
  let n := data.length
  let sorted := List.insertionSort (· ≤ ·) data
  let sum := ((List.range n).map fun (i : ℕ) =>
    (2 * ((i : ℝ) + 1) - 1) *
      (Real.log (max 1e-10 (min (1 - 1e-10) (normCDF ((sorted.getD i 0 - mu) / sigma)))) +
       Real.log (max 1e-10 (min (1 - 1e-10)
         (1 - normCDF ((sorted.getD i 0 - mu) / sigma)))))).sum
  let a2 := -(n : ℝ) - sum / (n : ℝ)
  let a2Adjusted := a2 * (1 + 0.75 / (n : ℝ) + 2.25 / ((n : ℝ) * (n : ℝ)))
  let pValue0 :=
    if a2Adjusted < 0.2 then
      1 - Real.exp (-13.436 + 101.14 * a2Adjusted - 223.73 * a2Adjusted * a2Adjusted)
    else if a2Adjusted < 0.34 then
      1 - Real.exp (-8.318 + 42.796 * a2Adjusted - 59.938 * a2Adjusted * a2Adjusted)
    else if a2Adjusted < 0.6 then
      Real.exp (0.9177 - 4.279 * a2Adjusted - 1.38 * a2Adjusted * a2Adjusted)
    else
      Real.exp (1.2937 - 5.709 * a2Adjusted + 0.0186 * a2Adjusted * a2Adjusted)
  ⟨"Anderson-Darling", a2Adjusted, max 0 (min 1 pValue0), a2Adjusted > 0.787, alpha⟩

/-- Embedding of `computeShapiroWilkCoefficient(i, n) = 1 / Math.sqrt(n)`
from src/core/tests.ts. -/
def computeShapiroWilkCoefficient (_i n : ℕ) : ℝ :=
  1 / Real.sqrt n

/-- Embedding of `shapiroWilkTest(data, alpha)` from src/core/tests.ts.  It
returns `null` (modelled `none`) when `n < 3` or `n > 5000`.  The source
stores the clamped p-value `Math.max(0, Math.min(1, pValue))` in the record
but computes `rejectNull` from the unclamped local `pValue`; both are kept
exactly. -/
def shapiroWilkTest (data : List ℝ) (alpha : ℝ) : Option StatisticalTest :=
  let n := data.length
  if n < 3 ∨ 5000 < n then none
  else
    let sorted := List.insertionSort (· ≤ ·) data
    let mean := data.sum / (n : ℝ)
    let ssTotal := (data.map fun x => (x - mean) ^ 2).sum
    let numerator := ((List.range (n / 2)).map fun i =>
      computeShapiroWilkCoefficient (i + 1) n * (sorted.getD (n - 1 - i) 0 - sorted.getD i 0)).sum
    let w := numerator ^ 2 / ssTotal
    let z := (-Real.log (1 - w) - 1) / Real.sqrt (2 / (n : ℝ))
    let pValue := 1 - normCDF z
    some ⟨"Shapiro-Wilk", w, max 0 (min 1 pValue), pValue < alpha, alpha⟩

/-- The golden ratio `phi = (1 + Math.sqrt(5)) / 2` of `goldenSectionSearch`
(src/utils/math.ts). -/
def goldenPhi : ℝ :=
  (1 + Real.sqrt 5) / 2

/-- The constant `resphi = 2 - phi` of `goldenSectionSearch`
(src/utils/math.ts). -/
def goldenResphi : ℝ :=
  2 - goldenPhi

/-- The `while (Math.abs(b - a) > tol)` loop of `goldenSectionSearch`
(src/utils/math.ts), fuelled.  State: bracket `(a, b)`, probe points
`(x1, x2)` and their values `(f1, f2)`.  Each iteration keeps the probe on
the surviving side and inserts one new probe; on exit it returns
`(a + b) / 2`.  The fuel is chosen below so that the loop always exits
through the tolerance test. -/
def gssGo (f : ℝ → ℝ) (tol : ℝ) : ℕ → ℝ → ℝ → ℝ → ℝ → ℝ → ℝ → ℝ
  | 0, a, b, _, _, _, _ => (a + b) / 2
  | fuel + 1, a, b, x1, x2, f1, f2 =>
    if |b - a| > tol then
      if f1 < f2 then
        gssGo f tol fuel a x2 (a + goldenResphi * (x2 - a)) x1
          (f (a + goldenResphi * (x2 - a))) f1
      else
        gssGo f tol fuel x1 b x2 (b - goldenResphi * (b - x1)) f2
          (f (b - goldenResphi * (b - x1)))
    else (a + b) / 2

/-- Fuel sufficient for `gssGo`: the bracket width shrinks by the factor
`phi - 1` each iteration, so the least `k` with `(phi-1)^k * (b-a) ≤ tol`
bounds the iteration count of the source's `while` loop. -/
def gssFuel (a b tol : ℝ) : ℕ :=
  if h : ∃ k : ℕ, (goldenPhi - 1) ^ k * (b - a) ≤ tol then Nat.find h else 0

/-- Embedding of `goldenSectionSearch(f, a, b, tol)` from src/utils/math.ts:
initial probes `x1 = a + resphi*(b-a)`, `x2 = b - resphi*(b-a)`, then the
bracket-shrinking loop, returning the midpoint of the final bracket. -/
def goldenSectionSearch (f : ℝ → ℝ) (a b tol : ℝ) : ℝ :=
  gssGo f tol (gssFuel a b tol) a b (a + goldenResphi * (b - a)) (b - goldenResphi * (b - a))
    (f (a + goldenResphi * (b - a))) (f (b - goldenResphi * (b - a)))

/-- Shifting the centre of a sum of squared deviations. -/
lemma sq_sum_shift (l : List ℝ) (c c' : ℝ) :
    (l.map fun y => (y - c') ^ 2).sum =
      (l.map fun y => (y - c) ^ 2).sum + 2 * (c - c') * (l.sum - (l.length : ℝ) * c) +
        (l.length : ℝ) * (c - c') ^ 2 := by
  induction l with
  | nil => simp
  | cons x xs ih =>
    simp only [List.map_cons, List.sum_cons, List.length_cons, ih]
    push_cast
    ring

/-- Invariant of the Welford loop: after folding a list the state holds the
length, the arithmetic mean and the centred sum of squares. -/
lemma welford_foldl (data : List ℝ) :
    data.foldl welfordStep ⟨0, 0, 0⟩ =
      ⟨data.length, data.sum / (data.length : ℝ),
        (data.map fun y => (y - data.sum / (data.length : ℝ)) ^ 2).sum⟩ := by
  induction data using List.reverseRecOn with
  | nil => simp
  | append_singleton l x ih =>
    rw [List.foldl_append, ih]
    rcases Nat.eq_zero_or_pos l.length with h0 | hpos
    · have hl : l = [] := List.length_eq_zero.mp h0
      subst hl
      simp [welfordStep]
    · have hn : ((l.length : ℝ)) ≠ 0 := by positivity
      have hn1 : ((l.length : ℝ)) + 1 ≠ 0 := by positivity
      have hmean : l.sum / (l.length : ℝ) + (x - l.sum / (l.length : ℝ)) / ((l.length : ℝ) + 1) =
          (l.sum + x) / ((l.length : ℝ) + 1) := by
        field_simp
        ring
      simp only [List.foldl_cons, List.foldl_nil, welfordStep, List.sum_append,
        List.length_append, List.sum_cons, List.sum_nil, List.length_cons, List.length_nil,
        List.map_append, List.map_cons, List.map_nil, add_zero, zero_add,
        WelfordState.mk.injEq]
      refine ⟨trivial, ?_, ?_⟩
      · push_cast
        exact hmean
      · push_cast
        rw [sq_sum_shift l (l.sum / (l.length : ℝ)) ((l.sum + x) / ((l.length : ℝ) + 1))]
        have hzero : l.sum - (l.length : ℝ) * (l.sum / (l.length : ℝ)) = 0 := by
          field_simp
        rw [hzero]
        field_simp
        ring

/-- C4: for every sample, the single-pass Welford recurrence of
`welfordAlgorithm` (used by `computeSummaryStats`) computes, in exact real
arithmetic, exactly the naive two-pass results: the mean is `sum(x)/n` and
the variance is `sum((x - mean)^2)/(n - 1)` for `n > 1` and `0` for
`n ≤ 1`. -/
theorem welford_matches_naive (data : List ℝ) :
    (welfordAlgorithm data).mean = data.sum / (data.length : ℝ) ∧
    (welfordAlgorithm data).variance =
      (if 1 < data.length then
        ((data.map fun x => (x - data.sum / (data.length : ℝ)) ^ 2).sum) /
          ((data.length : ℝ) - 1)
      else 0) := by
  unfold welfordAlgorithm
  rw [welford_foldl]
  exact ⟨rfl, rfl⟩

/-- C8: whenever the capped tail count `kActual` is below 5, both
`computeHillIndex` and `computeLeftTailIndex` return the NaN sentinel
(modelled `none`) instead of raising an error. -/
theorem hill_nan_when_k_small (sorted : List ℝ)
    (h : hillKActual sorted.length < 5) :
    computeHillIndex sorted = none ∧ computeLeftTailIndex sorted = none := by
  unfold computeHillIndex computeLeftTailIndex
  rw [if_pos h, if_pos h]
  exact ⟨rfl, rfl⟩

/-- Witness for C8 at the sample size 10 named by the claim: the capped
count is `min (max (max ⌊√10⌋ 0) 20) 2 = 2 < 5` and both indices are the
NaN sentinel. -/
theorem hill_nan_when_k_small_witness :
    hillKActual (([1, 2, 3, 4, 5, 6, 7, 8, 9, 10] : List ℝ)).length < 5 ∧
    computeHillIndex ([1, 2, 3, 4, 5, 6, 7, 8, 9, 10] : List ℝ) = none ∧
    computeLeftTailIndex ([1, 2, 3, 4, 5, 6, 7, 8, 9, 10] : List ℝ) = none := by
  have h : hillKActual (([1, 2, 3, 4, 5, 6, 7, 8, 9, 10] : List ℝ)).length < 5 := by
    have hlen : (([1, 2, 3, 4, 5, 6, 7, 8, 9, 10] : List ℝ)).length = 10 := by
      simp
    rw [hlen]
    calc hillKActual 10 ≤ 10 / 5 := min_le_right _ _
    _ < 5 := by norm_num
  exact ⟨h, (hill_nan_when_k_small _ h).1, (hill_nan_when_k_small _ h).2⟩

/-- C9: `computeSummaryStats` on the empty sample fails fast with the named
error condition (the thrown `Error('Cannot compute statistics on empty data')`,
modelled as `Except.error`), never substituting a default result, and on
every non-empty sample it succeeds (that error is not raised). -/
theorem computeSummaryStats_empty_error :
    computeSummaryStats ([] : List ℝ) =
      Except.error "Cannot compute statistics on empty data" ∧
    ∀ data : List ℝ, data ≠ [] → computeSummaryStats data = Except.ok (summaryStatsCore data) := by
  constructor
  · rfl
  · intro data hd
    unfold computeSummaryStats
    rw [if_neg]
    simpa using hd

/-- Witness for C9: the one-point sample `[1]` is non-empty and the
computation succeeds. -/
theorem computeSummaryStats_empty_error_witness :
    ([1] : List ℝ) ≠ [] ∧
    computeSummaryStats ([1] : List ℝ) = Except.ok (summaryStatsCore [1]) := by
  refine ⟨by simp, computeSummaryStats_empty_error.2 [1] (by simp)⟩

/-- Indexing a sorted list (with default) is monotone. -/
lemma sorted_getD_mono {l : List ℝ} (hs : l.Sorted (· ≤ ·)) {i j : ℕ}
    (hij : i ≤ j) (hj : j < l.length) : l.getD i 0 ≤ l.getD j 0 := by
  have hi : i < l.length := lt_of_le_of_lt hij hj
  rw [List.getD_eq_getElem l 0 hi, List.getD_eq_getElem l 0 hj]
  have h := @List.Sorted.rel_get_of_le ℝ (· ≤ ·) _ l hs ⟨i, hi⟩ ⟨j, hj⟩
    (Fin.mk_le_mk.mpr hij)
  simpa [List.get_eq_getElem] using h

/-- Index bookkeeping for the interpolation branch of `quantile`: for a
fractional position `0 ≤ t ≤ n - 1`, floor and ceiling give valid indices. -/
lemma interp_index_facts {n : ℕ} {t : ℝ} (h0 : 0 ≤ t) (h1 : t ≤ (n : ℝ) - 1) :
    (⌊t⌋).toNat ≤ (⌈t⌉).toNat ∧ (⌈t⌉).toNat < n ∧ (⌈t⌉).toNat ≤ n - 1 ∧ 1 ≤ n := by
  have hn1 : (1 : ℝ) ≤ (n : ℝ) := by linarith
  have hn : 1 ≤ n := by exact_mod_cast hn1
  have hceil : ⌈t⌉ ≤ (n : ℤ) - 1 := by
    rw [Int.ceil_le]
    push_cast
    exact h1
  have hceq : ((n : ℤ) - 1) = ((n - 1 : ℕ) : ℤ) := by omega
  have htn : (⌈t⌉).toNat ≤ n - 1 := by
    have h := Int.toNat_le_toNat hceil
    rwa [hceq, Int.toNat_natCast] at h
  exact ⟨Int.toNat_le_toNat (Int.floor_le_ceil t),
    lt_of_le_of_lt htn (Nat.sub_lt hn one_pos), htn, hn⟩

/-- The interpolated value of the open branch of `quantile` lies between the
entries at the floor and the ceiling index. -/
lemma interp_bounds {l : List ℝ} (hs : l.Sorted (· ≤ ·)) {t : ℝ}
    (h0 : 0 ≤ t) (h1 : t ≤ (l.length : ℝ) - 1) :
    l.getD (⌊t⌋).toNat 0 ≤
        l.getD (⌊t⌋).toNat 0 * (1 - (t - ((⌊t⌋ : ℤ) : ℝ))) +
          l.getD (⌈t⌉).toNat 0 * (t - ((⌊t⌋ : ℤ) : ℝ)) ∧
      l.getD (⌊t⌋).toNat 0 * (1 - (t - ((⌊t⌋ : ℤ) : ℝ))) +
          l.getD (⌈t⌉).toNat 0 * (t - ((⌊t⌋ : ℤ) : ℝ)) ≤ l.getD (⌈t⌉).toNat 0 := by
  obtain ⟨hle, hlt, -, -⟩ := interp_index_facts h0 h1
  have hab : l.getD (⌊t⌋).toNat 0 ≤ l.getD (⌈t⌉).toNat 0 := sorted_getD_mono hs hle hlt
  have hw0 : 0 ≤ t - ((⌊t⌋ : ℤ) : ℝ) := by
    have h := Int.floor_le t
    linarith
  have hw1 : t - ((⌊t⌋ : ℤ) : ℝ) ≤ 1 := by
    have h := Int.lt_floor_add_one t
    linarith
  constructor <;> nlinarith [hab, hw0, hw1]

/-- Monotonicity of the linear interpolation through the entries of a sorted
list, as a function of the fractional position. -/
lemma interp_mono {l : List ℝ} (hs : l.Sorted (· ≤ ·)) {s t : ℝ}
    (h0 : 0 ≤ s) (hst : s ≤ t) (h1 : t ≤ (l.length : ℝ) - 1) :
    l.getD (⌊s⌋).toNat 0 * (1 - (s - ((⌊s⌋ : ℤ) : ℝ))) +
        l.getD (⌈s⌉).toNat 0 * (s - ((⌊s⌋ : ℤ) : ℝ)) ≤
      l.getD (⌊t⌋).toNat 0 * (1 - (t - ((⌊t⌋ : ℤ) : ℝ))) +
        l.getD (⌈t⌉).toNat 0 * (t - ((⌊t⌋ : ℤ) : ℝ)) := by
  have h0t : 0 ≤ t := le_trans h0 hst
  have h1s : s ≤ (l.length : ℝ) - 1 := le_trans hst h1
  obtain ⟨hleT, hltT, -, -⟩ := interp_index_facts h0t h1
  rcases lt_or_eq_of_le (Int.floor_le_floor hst) with hff | hff
  · -- the floor strictly increases: chain through the intermediate entries
    have hcf : ⌈s⌉ ≤ ⌊t⌋ := le_trans (Int.ceil_le_floor_add_one s) (by omega)
    have hfltT : (⌊t⌋).toNat < l.length :=
      lt_of_le_of_lt (Int.toNat_le_toNat (Int.floor_le_ceil t)) hltT
    calc l.getD (⌊s⌋).toNat 0 * (1 - (s - ((⌊s⌋ : ℤ) : ℝ))) +
        l.getD (⌈s⌉).toNat 0 * (s - ((⌊s⌋ : ℤ) : ℝ)) ≤
        l.getD (⌈s⌉).toNat 0 := (interp_bounds hs h0 h1s).2
      _ ≤ l.getD (⌊t⌋).toNat 0 := sorted_getD_mono hs (Int.toNat_le_toNat hcf) hfltT
      _ ≤ _ := (interp_bounds hs h0t h1).1
  · by_cases hti : ⌈t⌉ = ⌊t⌋
    · -- t is an integer position and s shares its floor, so s = t
      have htF : ((⌊t⌋ : ℤ) : ℝ) = t := by
        have ha := Int.floor_le t
        have hb := Int.le_ceil t
        rw [hti] at hb
        linarith
      have hst' : s = t := by
        have hfs := Int.floor_le s
        rw [hff] at hfs
        linarith
      rw [hst']
    · have hct : ⌈t⌉ = ⌊t⌋ + 1 := by
        have ha := Int.ceil_le_floor_add_one t
        have hb := Int.floor_le_ceil t
        omega
      by_cases hsi : ⌈s⌉ = ⌊s⌋
      · -- s is an integer position: its interpolation is the floor entry
        have hsF : s = ((⌊s⌋ : ℤ) : ℝ) := by
          have ha := Int.floor_le s
          have hb := Int.le_ceil s
          rw [hsi] at hb
          linarith
        have hw : s - ((⌊s⌋ : ℤ) : ℝ) = 0 := by linarith
        rw [hw]
        have hgoal : l.getD (⌊s⌋).toNat 0 * (1 - 0) + l.getD (⌈s⌉).toNat 0 * 0 =
            l.getD (⌊s⌋).toNat 0 := by ring
        rw [hgoal, hff]
        exact (interp_bounds hs h0t h1).1
      · have hcs : ⌈s⌉ = ⌊s⌋ + 1 := by
          have ha := Int.ceil_le_floor_add_one s
          have hb := Int.floor_le_ceil s
          omega
      -- same floor and same ceiling: linear in the weight
        have hcc : ⌈s⌉ = ⌈t⌉ := by omega
        have hw0 : 0 ≤ s - ((⌊s⌋ : ℤ) : ℝ) := by
          have h := Int.floor_le s
          linarith
        have hws : s - ((⌊s⌋ : ℤ) : ℝ) ≤ t - ((⌊t⌋ : ℤ) : ℝ) := by
          rw [← hff]
          linarith
        have hab : l.getD (⌊t⌋).toNat 0 ≤ l.getD (⌈t⌉).toNat 0 :=
          sorted_getD_mono hs (Int.toNat_le_toNat (Int.floor_le_ceil t)) hltT
        rw [hff, hcc]
        nlinarith [hab, hw0, hws]

/-- The `p <= 0` branch of `quantile`. -/
lemma quantile_of_nonpos {l : List ℝ} (hn : l.length ≠ 0) {p : ℝ} (hp : p ≤ 0) :
    quantile l p = l.getD 0 0 := by
  unfold quantile
  rw [if_neg hn, if_pos hp]

/-- The `p >= 1` branch of `quantile`. -/
lemma quantile_of_one_le {l : List ℝ} (hn : l.length ≠ 0) {p : ℝ} (hp : 1 ≤ p) :
    quantile l p = l.getD (l.length - 1) 0 := by
  unfold quantile
  rw [if_neg hn, if_neg (by linarith), if_pos hp]

/-- The interpolation branch of `quantile` for `0 < p < 1`. -/
lemma quantile_of_open {l : List ℝ} (hn : l.length ≠ 0) {p : ℝ}
    (hp0 : ¬ p ≤ 0) (hp1 : ¬ 1 ≤ p) :
    quantile l p =
      l.getD (⌊p * ((l.length : ℝ) - 1)⌋).toNat 0 *
          (1 - (p * ((l.length : ℝ) - 1) - ((⌊p * ((l.length : ℝ) - 1)⌋ : ℤ) : ℝ))) +
        l.getD (⌈p * ((l.length : ℝ) - 1)⌉).toNat 0 *
          (p * ((l.length : ℝ) - 1) - ((⌊p * ((l.length : ℝ) - 1)⌋ : ℤ) : ℝ)) := by
  unfold quantile
  rw [if_neg hn, if_neg hp0, if_neg hp1]

/-- Position bounds for the interpolation branch: `0 ≤ p(n-1) ≤ n-1`. -/
lemma interp_pos_bounds {l : List ℝ} (hn : l.length ≠ 0) {p : ℝ}
    (hp0 : ¬ p ≤ 0) (hp1 : ¬ 1 ≤ p) :
    0 ≤ p * ((l.length : ℝ) - 1) ∧ p * ((l.length : ℝ) - 1) ≤ (l.length : ℝ) - 1 := by
  push_neg at hp0 hp1
  have hn1 : (1 : ℝ) ≤ (l.length : ℝ) := by
    have h := Nat.one_le_iff_ne_zero.mpr hn
    exact_mod_cast h
  constructor
  · exact mul_nonneg hp0.le (by linarith)
  · nlinarith

/-- Every quantile of a sorted list is at least its first element. -/
lemma quantile_ge_first {l : List ℝ} (hs : l.Sorted (· ≤ ·)) (hl : l ≠ []) (p : ℝ) :
    l.getD 0 0 ≤ quantile l p := by
  have hn : l.length ≠ 0 := by simpa using hl
  have hpos : 0 < l.length := Nat.pos_of_ne_zero hn
  by_cases hp0 : p ≤ 0
  · rw [quantile_of_nonpos hn hp0]
  · by_cases hp1 : 1 ≤ p
    · rw [quantile_of_one_le hn hp1]
      exact sorted_getD_mono hs (Nat.zero_le _) (Nat.sub_lt hpos one_pos)
    · rw [quantile_of_open hn hp0 hp1]
      obtain ⟨h0, h1⟩ := interp_pos_bounds hn hp0 hp1
      obtain ⟨hle, hlt, -, -⟩ := interp_index_facts h0 h1
      calc l.getD 0 0 ≤ l.getD (⌊p * ((l.length : ℝ) - 1)⌋).toNat 0 :=
          sorted_getD_mono hs (Nat.zero_le _) (lt_of_le_of_lt hle hlt)
        _ ≤ _ := (interp_bounds hs h0 h1).1

/-- Every quantile of a sorted list is at most its last element. -/
lemma quantile_le_last {l : List ℝ} (hs : l.Sorted (· ≤ ·)) (hl : l ≠ []) (p : ℝ) :
    quantile l p ≤ l.getD (l.length - 1) 0 := by
  have hn : l.length ≠ 0 := by simpa using hl
  have hpos : 0 < l.length := Nat.pos_of_ne_zero hn
  by_cases hp0 : p ≤ 0
  · rw [quantile_of_nonpos hn hp0]
    exact sorted_getD_mono hs (Nat.zero_le _) (Nat.sub_lt hpos one_pos)
  · by_cases hp1 : 1 ≤ p
    · rw [quantile_of_one_le hn hp1]
    · rw [quantile_of_open hn hp0 hp1]
      obtain ⟨h0, h1⟩ := interp_pos_bounds hn hp0 hp1
      obtain ⟨-, hlt, hle1, -⟩ := interp_index_facts h0 h1
      calc _ ≤ l.getD (⌈p * ((l.length : ℝ) - 1)⌉).toNat 0 := (interp_bounds hs h0 h1).2
        _ ≤ l.getD (l.length - 1) 0 :=
          sorted_getD_mono hs hle1 (Nat.sub_lt hpos one_pos)

/-- The quantile of a sorted list is monotone in the fraction `p`. -/
lemma quantile_mono {l : List ℝ} (hs : l.Sorted (· ≤ ·)) (hl : l ≠ [])
    {p q : ℝ} (hpq : p ≤ q) : quantile l p ≤ quantile l q := by
  have hn : l.length ≠ 0 := by simpa using hl
  by_cases hp0 : p ≤ 0
  · rw [quantile_of_nonpos hn hp0]
    exact quantile_ge_first hs hl q
  · by_cases hq1 : 1 ≤ q
    · rw [quantile_of_one_le hn hq1]
      exact quantile_le_last hs hl p
    · have hq0 : ¬ q ≤ 0 := by
        push_neg at hp0 ⊢
        linarith
      have hp1 : ¬ 1 ≤ p := by
        push_neg at hq1 ⊢
        linarith
      rw [quantile_of_open hn hp0 hp1, quantile_of_open hn hq0 hq1]
      obtain ⟨h0p, -⟩ := interp_pos_bounds hn hp0 hp1
      obtain ⟨-, h1q⟩ := interp_pos_bounds hn hq0 hq1
      have hmul : p * ((l.length : ℝ) - 1) ≤ q * ((l.length : ℝ) - 1) := by
        have hn1 : (1 : ℝ) ≤ (l.length : ℝ) := by
          have h := Nat.one_le_iff_ne_zero.mpr hn
          exact_mod_cast h
        have hnn : (0 : ℝ) ≤ (l.length : ℝ) - 1 := by linarith
        exact mul_le_mul_of_nonneg_right hpq hnn
      exact interp_mono hs h0p hmul h1q

/-- On a one-element list every quantile is the single entry. -/
lemma quantile_singleton {l : List ℝ} (h : l.length = 1) (p : ℝ) :
    quantile l p = l.getD 0 0 := by
  have hn : l.length ≠ 0 := by omega
  by_cases hp0 : p ≤ 0
  · exact quantile_of_nonpos hn hp0
  · by_cases hp1 : 1 ≤ p
    · rw [quantile_of_one_le hn hp1, h]
    · rw [quantile_of_open hn hp0 hp1, h]
      norm_num

/-- C10: on a non-empty ascending-sorted array the empirical quantile clamps
out-of-range fractions (first element for `p ≤ 0`, last element for `p ≥ 1`)
instead of returning NaN, every quantile lies between the first and the last
element, and consequently `computeVaR` with confidence `≥ 1` returns the
negated sample minimum (the negated first sorted element). -/
theorem quantile_clamps (l : List ℝ) (p : ℝ)
    (hs : l.Sorted (· ≤ ·)) (hl : l ≠ []) :
    (p ≤ 0 → quantile l p = l.getD 0 0) ∧
    (1 ≤ p → quantile l p = l.getD (l.length - 1) 0) ∧
    l.getD 0 0 ≤ quantile l p ∧
    quantile l p ≤ l.getD (l.length - 1) 0 ∧
    ∀ c : ℝ, 1 ≤ c → computeVaR l c = -l.getD 0 0 := by
  have hn : l.length ≠ 0 := by simpa using hl
  refine ⟨fun hp => quantile_of_nonpos hn hp, fun hp => quantile_of_one_le hn hp,
    quantile_ge_first hs hl p, quantile_le_last hs hl p, fun c hc => ?_⟩
  unfold computeVaR
  rw [quantile_of_nonpos hn (by linarith)]

/-- Witness for C10 at the sorted two-point list `[1, 2]` and `p = 1/2`. -/
theorem quantile_clamps_witness :
    List.Sorted (· ≤ ·) [(1 : ℝ), 2] ∧ ([(1 : ℝ), 2] ≠ []) ∧
    (((1 : ℝ) / 2) ≤ 0 → quantile [(1 : ℝ), 2] ((1 : ℝ) / 2) = ([(1 : ℝ), 2]).getD 0 0) ∧
    ((1 : ℝ) ≤ (1 : ℝ) / 2 → quantile [(1 : ℝ), 2] ((1 : ℝ) / 2) =
      ([(1 : ℝ), 2]).getD (([(1 : ℝ), 2]).length - 1) 0) ∧
    ([(1 : ℝ), 2]).getD 0 0 ≤ quantile [(1 : ℝ), 2] ((1 : ℝ) / 2) ∧
    quantile [(1 : ℝ), 2] ((1 : ℝ) / 2) ≤ ([(1 : ℝ), 2]).getD (([(1 : ℝ), 2]).length - 1) 0 ∧
    ∀ c : ℝ, 1 ≤ c → computeVaR [(1 : ℝ), 2] c = -([(1 : ℝ), 2]).getD 0 0 := by
  have hs : List.Sorted (· ≤ ·) [(1 : ℝ), 2] := by
    norm_num [List.sorted_cons]
  have hl : ([(1 : ℝ), 2] : List ℝ) ≠ [] := by simp
  exact ⟨hs, hl, quantile_clamps [(1 : ℝ), 2] ((1 : ℝ) / 2) hs hl⟩

/-- C5: whenever `computeSummaryStats` succeeds, the returned record
satisfies `min ≤ p5 ≤ p25 ≤ median ≤ p75 ≤ p95 ≤ max`. -/
theorem summaryStats_percentile_chain (data : List ℝ) (s : SummaryStats)
    (h : computeSummaryStats data = Except.ok s) :
    s.min ≤ s.p5 ∧ s.p5 ≤ s.p25 ∧ s.p25 ≤ s.median ∧ s.median ≤ s.p75 ∧
      s.p75 ≤ s.p95 ∧ s.p95 ≤ s.max := by
  unfold computeSummaryStats at h
  by_cases hd : data.length = 0
  · rw [if_pos hd] at h
    exact absurd h (by simp)
  · rw [if_neg hd] at h
    have hseq : summaryStatsCore data = s := Except.ok.inj h
    subst hseq
    have hs : (List.insertionSort (· ≤ ·) data).Sorted (· ≤ ·) :=
      List.sorted_insertionSort (· ≤ ·) data
    have hlen : (List.insertionSort (· ≤ ·) data).length = data.length :=
      (List.perm_insertionSort (· ≤ ·) data).length_eq
    have hne : List.insertionSort (· ≤ ·) data ≠ [] := by
      rw [← List.length_pos, hlen]
      omega
    refine ⟨?_, ?_, ?_, ?_, ?_, ?_⟩
    · show (List.insertionSort (· ≤ ·) data).getD 0 0 ≤
        quantile (List.insertionSort (· ≤ ·) data) 0.05
      exact quantile_ge_first hs hne 0.05
    · show quantile (List.insertionSort (· ≤ ·) data) 0.05 ≤
        quantile (List.insertionSort (· ≤ ·) data) 0.25
      exact quantile_mono hs hne (by norm_num)
    · show quantile (List.insertionSort (· ≤ ·) data) 0.25 ≤
        quantile (List.insertionSort (· ≤ ·) data) 0.5
      exact quantile_mono hs hne (by norm_num)
    · show quantile (List.insertionSort (· ≤ ·) data) 0.5 ≤
        quantile (List.insertionSort (· ≤ ·) data) 0.75
      exact quantile_mono hs hne (by norm_num)
    · show quantile (List.insertionSort (· ≤ ·) data) 0.75 ≤
        quantile (List.insertionSort (· ≤ ·) data) 0.95
      exact quantile_mono hs hne (by norm_num)
    · show quantile (List.insertionSort (· ≤ ·) data) 0.95 ≤
        (List.insertionSort (· ≤ ·) data).getD (data.length - 1) 0
      rw [← hlen]
      exact quantile_le_last hs hne 0.95

/-- Witness for C5 at the sample `[1, 2]`. -/
theorem summaryStats_percentile_chain_witness :
    computeSummaryStats [(1 : ℝ), 2] = Except.ok (summaryStatsCore [(1 : ℝ), 2]) ∧
    ((summaryStatsCore [(1 : ℝ), 2]).min ≤ (summaryStatsCore [(1 : ℝ), 2]).p5 ∧
      (summaryStatsCore [(1 : ℝ), 2]).p5 ≤ (summaryStatsCore [(1 : ℝ), 2]).p25 ∧
      (summaryStatsCore [(1 : ℝ), 2]).p25 ≤ (summaryStatsCore [(1 : ℝ), 2]).median ∧
      (summaryStatsCore [(1 : ℝ), 2]).median ≤ (summaryStatsCore [(1 : ℝ), 2]).p75 ∧
      (summaryStatsCore [(1 : ℝ), 2]).p75 ≤ (summaryStatsCore [(1 : ℝ), 2]).p95 ∧
      (summaryStatsCore [(1 : ℝ), 2]).p95 ≤ (summaryStatsCore [(1 : ℝ), 2]).max) := by
  have h : computeSummaryStats [(1 : ℝ), 2] = Except.ok (summaryStatsCore [(1 : ℝ), 2]) := by
    unfold computeSummaryStats
    rw [if_neg (by simp)]
  exact ⟨h, summaryStats_percentile_chain [(1 : ℝ), 2] _ h⟩

/-- C3 (amended): for every non-empty sample the signed VaR values of
`computeTailMetrics` satisfy `var95 ≤ var99` (the 99% quantile is at least
as extreme towards the loss side); the magnitude comparison of the original
claim holds only when the values are non-negative. -/
theorem tailMetrics_var95_le_var99 (data : List ℝ) (hd : data ≠ []) :
    (computeTailMetrics data).var95 ≤ (computeTailMetrics data).var99 := by
  have hs : (List.insertionSort (· ≤ ·) data).Sorted (· ≤ ·) :=
    List.sorted_insertionSort (· ≤ ·) data
  have hlen : (List.insertionSort (· ≤ ·) data).length = data.length :=
    (List.perm_insertionSort (· ≤ ·) data).length_eq
  have hne : List.insertionSort (· ≤ ·) data ≠ [] := by
    rw [← List.length_pos, hlen]
    exact List.length_pos.mpr hd
  show -quantile (List.insertionSort (· ≤ ·) data) (1 - 0.95) ≤
      -quantile (List.insertionSort (· ≤ ·) data) (1 - 0.99)
  have hq : quantile (List.insertionSort (· ≤ ·) data) (1 - 0.99) ≤
      quantile (List.insertionSort (· ≤ ·) data) (1 - 0.95) :=
    quantile_mono hs hne (by norm_num)
  linarith

/-- Witness for the amended C3 at the sample `[1, 2]`. -/
theorem tailMetrics_var95_le_var99_witness :
    ([(1 : ℝ), 2] ≠ []) ∧
    (computeTailMetrics [(1 : ℝ), 2]).var95 ≤ (computeTailMetrics [(1 : ℝ), 2]).var99 := by
  exact ⟨by simp, tailMetrics_var95_le_var99 [(1 : ℝ), 2] (by simp)⟩

/-- Counterexample to C3 as stated: on the all-positive sorted sample
`[1, 2]` the magnitude of `var99` (1.01) is strictly smaller than the
magnitude of `var95` (1.05). -/
theorem var99_magnitude_counterexample :
    |(computeTailMetrics [(1 : ℝ), 2]).var99| < |(computeTailMetrics [(1 : ℝ), 2]).var95| := by
  have hsort : List.insertionSort (· ≤ ·) [(1 : ℝ), 2] = [1, 2] := by
    simp [List.insertionSort, List.orderedInsert]
  have h95 : (computeTailMetrics [(1 : ℝ), 2]).var95 = -1.05 := by
    show -quantile (List.insertionSort (· ≤ ·) [(1 : ℝ), 2]) (1 - 0.95) = -1.05
    rw [hsort, show (1 : ℝ) - 0.95 = 0.05 by norm_num]
    rw [quantile_of_open (by simp) (by norm_num) (by norm_num)]
    have hl2 : ((([(1 : ℝ), 2]).length : ℕ) : ℝ) = 2 := by simp
    rw [hl2]
    have hfl : ⌊(0.05 : ℝ) * (2 - 1)⌋ = 0 := by norm_num
    have hcl : ⌈(0.05 : ℝ) * (2 - 1)⌉ = 1 := by
      rw [Int.ceil_eq_iff]
      constructor <;> norm_num
    rw [hfl, hcl]
    norm_num [List.getD_cons_zero, List.getD_cons_succ]
  have h99 : (computeTailMetrics [(1 : ℝ), 2]).var99 = -1.01 := by
    show -quantile (List.insertionSort (· ≤ ·) [(1 : ℝ), 2]) (1 - 0.99) = -1.01
    rw [hsort, show (1 : ℝ) - 0.99 = 0.01 by norm_num]
    rw [quantile_of_open (by simp) (by norm_num) (by norm_num)]
    have hl2 : ((([(1 : ℝ), 2]).length : ℕ) : ℝ) = 2 := by simp
    rw [hl2]
    have hfl : ⌊(0.01 : ℝ) * (2 - 1)⌋ = 0 := by norm_num
    have hcl : ⌈(0.01 : ℝ) * (2 - 1)⌉ = 1 := by
      rw [Int.ceil_eq_iff]
      constructor <;> norm_num
    rw [hfl, hcl]
    norm_num [List.getD_cons_zero, List.getD_cons_succ]
  rw [h95, h99, abs_of_neg (by norm_num), abs_of_neg (by norm_num)]
  norm_num

/-- C2 (amended): whenever the VaR index `⌊(1-confidence)·n⌋` is 0,
`computeCVaR` returns the negated first (smallest) sorted element — the
single worst point.  This agrees with `computeVaR` when the quantile lands
exactly on that element (`n = 1` or `confidence ≥ 1`); in general
`computeVaR` interpolates between the two smallest points. -/
theorem cvar_at_varIndex_zero (sorted : List ℝ) (confidence : ℝ)
    (hl : sorted ≠ [])
    (h : ⌊(1 - confidence) * (sorted.length : ℝ)⌋ = 0) :
    computeCVaR sorted confidence = -sorted.getD 0 0 ∧
    (sorted.length = 1 ∨ 1 ≤ confidence →
      computeCVaR sorted confidence = computeVaR sorted confidence) := by
  have hn : sorted.length ≠ 0 := by simpa using hl
  have hc : computeCVaR sorted confidence = -sorted.getD 0 0 := by
    simp only [computeCVaR]
    rw [if_pos h]
  refine ⟨hc, fun hone => ?_⟩
  rw [hc]
  rcases hone with h1 | hconf
  · unfold computeVaR
    rw [quantile_singleton h1]
  · unfold computeVaR
    rw [quantile_of_nonpos hn (by linarith)]

/-- Witness for the amended C2: the one-point sample `[5]` with confidence
0.95 has VaR index `⌊0.05 · 1⌋ = 0`. -/
theorem cvar_at_varIndex_zero_witness :
    ([(5 : ℝ)] ≠ []) ∧ ⌊(1 - 0.95) * ((([(5 : ℝ)]).length : ℕ) : ℝ)⌋ = 0 ∧
    (computeCVaR [(5 : ℝ)] 0.95 = -([(5 : ℝ)]).getD 0 0 ∧
      (([(5 : ℝ)]).length = 1 ∨ (1 : ℝ) ≤ 0.95 →
        computeCVaR [(5 : ℝ)] 0.95 = computeVaR [(5 : ℝ)] 0.95)) := by
  have h : ⌊(1 - 0.95) * ((([(5 : ℝ)]).length : ℕ) : ℝ)⌋ = 0 := by
    norm_num
  exact ⟨by simp, h, cvar_at_varIndex_zero [(5 : ℝ)] 0.95 (by simp) h⟩

/-- Counterexample to C2 as stated: on the sorted sample `[0, 1]` with
confidence 0.95 the VaR index is `⌊0.1⌋ = 0`, `computeCVaR` returns 0 (the
negated worst point) but `computeVaR` interpolates and returns -0.05. -/
theorem cvar_ne_var_counterexample :
    List.Sorted (· ≤ ·) [(0 : ℝ), 1] ∧
    ⌊(1 - 0.95) * ((([(0 : ℝ), 1]).length : ℕ) : ℝ)⌋ = 0 ∧
    computeCVaR [(0 : ℝ), 1] 0.95 ≠ computeVaR [(0 : ℝ), 1] 0.95 := by
  have hfl : ⌊(1 - 0.95) * ((([(0 : ℝ), 1]).length : ℕ) : ℝ)⌋ = 0 := by
    norm_num
  refine ⟨by norm_num [List.sorted_cons], hfl, ?_⟩
  have hc : computeCVaR [(0 : ℝ), 1] 0.95 = 0 := by
    simp only [computeCVaR]
    rw [if_pos hfl]
    norm_num [List.getD_cons_zero]
  have hv : computeVaR [(0 : ℝ), 1] 0.95 = -0.05 := by
    unfold computeVaR
    rw [show (1 : ℝ) - 0.95 = 0.05 by norm_num]
    rw [quantile_of_open (by simp) (by norm_num) (by norm_num)]
    have hl2 : ((([(0 : ℝ), 1]).length : ℕ) : ℝ) = 2 := by simp
    rw [hl2]
    have hfl2 : ⌊(0.05 : ℝ) * (2 - 1)⌋ = 0 := by norm_num
    have hcl : ⌈(0.05 : ℝ) * (2 - 1)⌉ = 1 := by
      rw [Int.ceil_eq_iff]
      constructor <;> norm_num
    rw [hfl2, hcl]
    norm_num [List.getD_cons_zero, List.getD_cons_succ]
  rw [hc, hv]
  norm_num

/-- Numeric facts about the golden ratio constant of the source:
`1 < phi < 2` and the key identity `(phi - 1)^2 = 2 - phi`. -/
lemma goldenPhi_facts : 1 < goldenPhi ∧ goldenPhi < 2 ∧
    (goldenPhi - 1) ^ 2 = 2 - goldenPhi := by
  have hsq : Real.sqrt 5 ^ 2 = 5 := Real.sq_sqrt (by norm_num)
  have h1 : 1 < Real.sqrt 5 := by nlinarith [Real.sqrt_nonneg 5]
  have h3 : Real.sqrt 5 < 3 := by nlinarith [Real.sqrt_nonneg 5]
  unfold goldenPhi
  refine ⟨by linarith, by linarith, by nlinarith⟩

/-- Loop invariant of the golden-section `while` loop: if the probe points
are at their canonical positions inside a proper bracket, and the fuel `k`
satisfies `(phi-1)^k (b-a) ≤ tol`, the loop exits through the tolerance test
and returns the midpoint of a sub-bracket of width at most `tol`. -/
lemma gssGo_spec (f : ℝ → ℝ) (tol : ℝ) :
    ∀ (fuel : ℕ) (a b x1 x2 f1 f2 : ℝ), a < b →
      x1 = a + goldenResphi * (b - a) → x2 = b - goldenResphi * (b - a) →
      (goldenPhi - 1) ^ fuel * (b - a) ≤ tol →
      ∃ a2 b2, a ≤ a2 ∧ b2 ≤ b ∧ a2 < b2 ∧ b2 - a2 ≤ tol ∧
        gssGo f tol fuel a b x1 x2 f1 f2 = (a2 + b2) / 2 := by
  intro fuel
  induction fuel with
  | zero =>
    intro a b x1 x2 f1 f2 hab hx1 hx2 htol
    exact ⟨a, b, le_refl a, le_refl b, hab, by simpa using htol, rfl⟩
  | succ n ih =>
    intro a b x1 x2 f1 f2 hab hx1 hx2 htol
    obtain ⟨hphi1, hphi2, hphisq⟩ := goldenPhi_facts
    have hresphi : goldenResphi = 2 - goldenPhi := rfl
    have hwidth : 0 < b - a := by linarith
    simp only [gssGo]
    by_cases hgt : |b - a| > tol
    · rw [if_pos hgt]
      by_cases hf : f1 < f2
      · rw [if_pos hf]
        have hx2a : x2 - a = (goldenPhi - 1) * (b - a) := by
          rw [hx2, hresphi]
          ring
        have hab2 : a < x2 := by nlinarith
        have hx2b : x2 ≤ b := by nlinarith
        have hnew2 : x1 = x2 - goldenResphi * (x2 - a) := by
          rw [hx1, hx2, hresphi]
          linear_combination (-(b - a)) * hphisq
        have htol2 : (goldenPhi - 1) ^ n * (x2 - a) ≤ tol := by
          rw [hx2a]
          calc (goldenPhi - 1) ^ n * ((goldenPhi - 1) * (b - a)) =
              (goldenPhi - 1) ^ (n + 1) * (b - a) := by ring
            _ ≤ tol := htol
        obtain ⟨a2, b2, h1, h2, h3, h4, h5⟩ :=
          ih a x2 (a + goldenResphi * (x2 - a)) x1
            (f (a + goldenResphi * (x2 - a))) f1 hab2 rfl hnew2 htol2
        exact ⟨a2, b2, h1, le_trans h2 hx2b, h3, h4, h5⟩
      · rw [if_neg hf]
        have hbx1 : b - x1 = (goldenPhi - 1) * (b - a) := by
          rw [hx1, hresphi]
          ring
        have hab2 : x1 < b := by nlinarith
        have hax1 : a ≤ x1 := by nlinarith
        have hnew1 : x2 = x1 + goldenResphi * (b - x1) := by
          rw [hx1, hx2, hresphi]
          linear_combination (b - a) * hphisq
        have htol2 : (goldenPhi - 1) ^ n * (b - x1) ≤ tol := by
          rw [hbx1]
          calc (goldenPhi - 1) ^ n * ((goldenPhi - 1) * (b - a)) =
              (goldenPhi - 1) ^ (n + 1) * (b - a) := by ring
            _ ≤ tol := htol
        obtain ⟨a2, b2, h1, h2, h3, h4, h5⟩ :=
          ih x1 b x2 (b - goldenResphi * (b - x1)) f2
            (f (b - goldenResphi * (b - x1))) hab2 hnew1 rfl htol2
        exact ⟨a2, b2, le_trans hax1 h1, h2, h3, h4, h5⟩
    · rw [if_neg hgt]
      have habs : b - a ≤ tol := by
        have h := not_lt.mp hgt
        rwa [abs_of_pos hwidth] at h
      exact ⟨a, b, le_refl a, le_refl b, hab, habs, rfl⟩

/-- C7: for every objective `f`, bounds `a < b` and tolerance `tol > 0`,
`goldenSectionSearch` terminates (the fuelled loop exits through the
tolerance test) and returns the midpoint `(a2 + b2)/2` of a final bracket
`[a2, b2] ⊆ [a, b]` whose width is at most `tol`. -/
theorem goldenSectionSearch_brackets (f : ℝ → ℝ) (a b tol : ℝ)
    (hab : a < b) (htol : 0 < tol) :
    ∃ a2 b2, a ≤ a2 ∧ b2 ≤ b ∧ a2 < b2 ∧ b2 - a2 ≤ tol ∧
      goldenSectionSearch f a b tol = (a2 + b2) / 2 := by
  obtain ⟨hphi1, hphi2, -⟩ := goldenPhi_facts
  have hex : ∃ k : ℕ, (goldenPhi - 1) ^ k * (b - a) ≤ tol := by
    have hda : (0 : ℝ) < tol / (b - a) := div_pos htol (by linarith)
    obtain ⟨k, hk⟩ := exists_pow_lt_of_lt_one hda (show goldenPhi - 1 < 1 by linarith)
    refine ⟨k, le_of_lt ?_⟩
    exact (lt_div_iff₀ (by linarith)).mp hk
  have hfuel : (goldenPhi - 1) ^ (gssFuel a b tol) * (b - a) ≤ tol := by
    unfold gssFuel
    rw [dif_pos hex]
    exact Nat.find_spec hex
  unfold goldenSectionSearch
  exact gssGo_spec f tol (gssFuel a b tol) a b
    (a + goldenResphi * (b - a)) (b - goldenResphi * (b - a))
    (f (a + goldenResphi * (b - a))) (f (b - goldenResphi * (b - a))) hab rfl rfl hfuel

/-- Witness for C7 with the identity objective on `[0, 1]` and `tol = 1`. -/
theorem goldenSectionSearch_brackets_witness :
    (0 : ℝ) < 1 ∧ (0 : ℝ) < 1 ∧
    ∃ a2 b2, (0 : ℝ) ≤ a2 ∧ b2 ≤ 1 ∧ a2 < b2 ∧ b2 - a2 ≤ 1 ∧
      goldenSectionSearch (fun x => x) 0 1 1 = (a2 + b2) / 2 :=
  ⟨by norm_num, by norm_num,
    goldenSectionSearch_brackets (fun x => x) 0 1 1 (by norm_num) (by norm_num)⟩

/-- The Abramowitz-Stegun correction term of `erf` lies strictly between 0
and 2 for every `u >= 0`: the Horner polynomial in `t = 1/(1 + p u)` is
positive and at most 3/2 on `(0, 1]`, and the Gaussian factor lies in
`(0, 1]`. -/
lemma erf_body_range (u : ℝ) (hu : 0 ≤ u) :
    0 < ((((1.061405429 * (1 / (1 + 0.3275911 * u)) + -1.453152027) * (1 / (1 + 0.3275911 * u)) + 1.421413741) * (1 / (1 + 0.3275911 * u)) + -0.284496736) * (1 / (1 + 0.3275911 * u)) + 0.254829592) * (1 / (1 + 0.3275911 * u)) * Real.exp (-(u * u)) ∧
      ((((1.061405429 * (1 / (1 + 0.3275911 * u)) + -1.453152027) * (1 / (1 + 0.3275911 * u)) + 1.421413741) * (1 / (1 + 0.3275911 * u)) + -0.284496736) * (1 / (1 + 0.3275911 * u)) + 0.254829592) * (1 / (1 + 0.3275911 * u)) * Real.exp (-(u * u)) < 2 := by
  have hden : (0 : ℝ) < 1 + 0.3275911 * u := by nlinarith
  set t : ℝ := 1 / (1 + 0.3275911 * u) with htdef
  have ht0 : 0 < t := by positivity
  have ht1 : t ≤ 1 := by
    rw [htdef, div_le_one hden]
    nlinarith
  set E : ℝ := Real.exp (-(u * u)) with hE
  have hE0 : 0 < E := Real.exp_pos _
  have hE1 : E ≤ 1 := by
    rw [hE, Real.exp_le_one_iff]
    nlinarith
  have hQpos : 0 < (((1.061405429 * t + -1.453152027) * t + 1.421413741) * t +
      -0.284496736) * t + 0.254829592 := by
    nlinarith [sq_nonneg t, sq_nonneg (1 - t), sq_nonneg (t * (1 - t)), sq_nonneg (t * t - t),
      mul_nonneg ht0.le (sub_nonneg.mpr ht1), sq_nonneg (t - 1/8),
      mul_nonneg (sq_nonneg (t - 1/8)) ht0.le]
  have hQ32 : (((1.061405429 * t + -1.453152027) * t + 1.421413741) * t +
      -0.284496736) * t + 0.254829592 ≤ 3 / 2 := by
    nlinarith [sq_nonneg t, sq_nonneg (1 - t), sq_nonneg (t * (1 - t)), sq_nonneg (t * t - t),
      mul_nonneg ht0.le (sub_nonneg.mpr ht1)]
  constructor
  · positivity
  · nlinarith [mul_pos hQpos ht0]

/-- The erf approximation of the source takes values strictly inside the
open interval from -1 to 1. -/
lemma erf_range (x : ℝ) : -1 < erf x ∧ erf x < 1 := by
  unfold erf
  obtain ⟨h0, h2⟩ := erf_body_range |x| (abs_nonneg x)
  by_cases hx : 0 ≤ x
  · rw [if_pos hx]
    constructor <;> nlinarith
  · rw [if_neg hx]
    constructor <;> nlinarith

/-- The source normCDF takes values strictly inside the open interval
from 0 to 1. -/
lemma normCDF_range (x : ℝ) : 0 < normCDF x ∧ normCDF x < 1 := by
  obtain ⟨h1, h2⟩ := erf_range (x / Real.sqrt 2)
  unfold normCDF
  constructor <;> nlinarith

/-- Spec-side definition following the words of the claim: the
Kolmogorov-Smirnov one-sided statistic D+ is the maximum over the
ascending-sorted points indexed `i = 0..n-1` of `(i+1)/n` minus the
theoretical normal CDF at that point. -/
def ksDPlusSpec (data : List ℝ) (mu sigma : ℝ)
    (h : (Finset.range data.length).Nonempty) : ℝ :=
  (Finset.range data.length).sup' h fun i =>
    ((i : ℝ) + 1) / (data.length : ℝ) -
      normCDF (((List.insertionSort (· ≤ ·) data).getD i 0 - mu) / sigma)

/-- Spec-side definition following the words of the claim: D- is the maximum
over the sorted points of the theoretical normal CDF minus `i/n`, the
pre-increment index (not `(i+1)/n`). -/
def ksDMinusSpec (data : List ℝ) (mu sigma : ℝ)
    (h : (Finset.range data.length).Nonempty) : ℝ :=
  (Finset.range data.length).sup' h fun i =>
    normCDF (((List.insertionSort (· ≤ ·) data).getD i 0 - mu) / sigma) -
      (i : ℝ) / (data.length : ℝ)

/-- Fission of the single KS loop carrying the pair `(dPlus, dMinus)` into
two independent max-folds. -/
lemma ks_foldl_split (sorted : List ℝ) (n : ℕ) (mu sigma : ℝ) :
    ∀ (L : List ℕ) (p : ℝ × ℝ),
      L.foldl (ksStep sorted n mu sigma) p =
        (L.foldl (fun (m : ℝ) (i : ℕ) => max m (((i : ℝ) + 1) / (n : ℝ) -
            normCDF ((sorted.getD i 0 - mu) / sigma))) p.1,
         L.foldl (fun (m : ℝ) (i : ℕ) => max m (normCDF ((sorted.getD i 0 - mu) / sigma) -
            (i : ℝ) / (n : ℝ))) p.2) := by
  intro L
  induction L with
  | nil => intro p; rfl
  | cons a L ih =>
    intro p
    simp only [List.foldl_cons, ksStep]
    rw [ih]

/-- A max-fold over `List.range n` started at `c` is the maximum of `c` and
the finite supremum over `Finset.range n`. -/
lemma foldl_max_range (g : ℕ → ℝ) :
    ∀ (n : ℕ) (c : ℝ) (h : (Finset.range n).Nonempty),
      (List.range n).foldl (fun m i => max m (g i)) c =
        max c ((Finset.range n).sup' h g) := by
  intro n
  induction n with
  | zero => intro c h; exact absurd h (by simp)
  | succ k ih =>
    intro c h
    rw [List.range_succ, List.foldl_append, List.foldl_cons, List.foldl_nil]
    rcases Nat.eq_zero_or_pos k with hk | hk
    · subst hk
      simp
    · have hk' : (Finset.range k).Nonempty := by
        rw [Finset.nonempty_range_iff]
        omega
      have hins : (Finset.range (k + 1)).sup' h g =
          max ((Finset.range k).sup' hk' g) (g k) := by
        apply le_antisymm
        · apply Finset.sup'_le
          intro i hi
          have hik : i < k + 1 := Finset.mem_range.mp hi
          rcases Nat.lt_or_ge i k with hlt | hge
          · exact le_trans (Finset.le_sup' g (Finset.mem_range.mpr hlt)) (le_max_left _ _)
          · have hieq : i = k := by omega
            subst hieq
            exact le_max_right _ _
        · apply max_le
          · apply Finset.sup'_le
            intro i hi
            refine Finset.le_sup' g (Finset.mem_range.mpr ?_)
            have hik := Finset.mem_range.mp hi
            omega
          · exact Finset.le_sup' g (Finset.mem_range.mpr (by omega))
      rw [ih c hk', hins, max_assoc]

/-- C6: the statistic of `kolmogorovSmirnovTest` is `max(D+, D-)`, where over
the ascending-sorted points `D+` is the maximum of `(i+1)/n` minus the
theoretical normal CDF and `D-` is the maximum of the theoretical CDF minus
`i/n` (the pre-increment index).  The literal maxima need no `max 0 _` floor
because the `i = 0` term of `D-` is `normCDF(z_0) > 0`. -/
theorem ks_statistic_eq_spec (data : List ℝ) (mu sigma alpha : ℝ)
    (h : (Finset.range data.length).Nonempty) :
    (kolmogorovSmirnovTest data mu sigma alpha).statistic =
      max (ksDPlusSpec data mu sigma h) (ksDMinusSpec data mu sigma h) := by
  have hn : 0 < data.length := by
    have hne := Finset.nonempty_range_iff.mp h
    omega
  unfold ksDPlusSpec ksDMinusSpec
  show max ((List.range data.length).foldl
      (ksStep (List.insertionSort (· ≤ ·) data) data.length mu sigma) (0, 0)).1
    ((List.range data.length).foldl
      (ksStep (List.insertionSort (· ≤ ·) data) data.length mu sigma) (0, 0)).2 = _
  rw [ks_foldl_split (List.insertionSort (· ≤ ·) data) data.length mu sigma
    (List.range data.length) (0, 0)]
  dsimp only
  rw [foldl_max_range _ data.length 0 h, foldl_max_range _ data.length 0 h]
  have hmem : (0 : ℕ) ∈ Finset.range data.length := Finset.mem_range.mpr hn
  have hle := Finset.le_sup' (fun i : ℕ =>
      normCDF (((List.insertionSort (· ≤ ·) data).getD i 0 - mu) / sigma) -
        (i : ℝ) / (data.length : ℝ)) hmem
  have hpos : 0 < normCDF (((List.insertionSort (· ≤ ·) data).getD 0 0 - mu) / sigma) :=
    (normCDF_range _).1
  have hSM : 0 < (Finset.range data.length).sup' h (fun i : ℕ =>
      normCDF (((List.insertionSort (· ≤ ·) data).getD i 0 - mu) / sigma) -
        (i : ℝ) / (data.length : ℝ)) :=
    lt_of_lt_of_le hpos (by simpa using hle)
  rw [max_max_max_comm, max_self]
  exact max_eq_right (le_trans hSM.le (le_max_right _ _))

/-- Witness for C6 on the one-point sample `[0]` against the standard
normal. -/
theorem ks_statistic_eq_spec_witness :
    (Finset.range (([(0 : ℝ)]).length)).Nonempty ∧
    (kolmogorovSmirnovTest [(0 : ℝ)] 0 1 0.05).statistic =
      max (ksDPlusSpec [(0 : ℝ)] 0 1 (by norm_num [Finset.nonempty_range_iff]))
        (ksDMinusSpec [(0 : ℝ)] 0 1 (by norm_num [Finset.nonempty_range_iff])) :=
  ⟨by norm_num [Finset.nonempty_range_iff],
    ks_statistic_eq_spec [(0 : ℝ)] 0 1 0.05 (by norm_num [Finset.nonempty_range_iff])⟩

/-- Clamping a value already in `[0, 1]` with `max 0 (min 1 _)` is the
identity, so the clamped Shapiro-Wilk p-value agrees with the unclamped one
used for its rejection decision. -/
lemma sw_record_props (z alpha : ℝ) :
    0 ≤ max 0 (min 1 (1 - normCDF z)) ∧ max 0 (min 1 (1 - normCDF z)) ≤ 1 ∧
      ((1 - normCDF z < alpha) ↔ max 0 (min 1 (1 - normCDF z)) < alpha) := by
  obtain ⟨h0, h1⟩ := normCDF_range z
  have e : max 0 (min 1 (1 - normCDF z)) = 1 - normCDF z := by
    rw [min_eq_right (by linarith), max_eq_right (by linarith)]
  rw [e]
  exact ⟨by linarith, by linarith, Iff.rfl⟩

/-- C1 (amended): for every input and significance level, `jarqueBeraTest`,
`kolmogorovSmirnovTest` and `shapiroWilkTest` satisfy
`rejectNull ↔ pValue < alpha`, and the p-values of `kolmogorovSmirnovTest`,
`andersonDarlingTest` and `shapiroWilkTest` are clamped into `[0, 1]`;
`andersonDarlingTest` instead rejects iff its adjusted statistic exceeds the
fixed critical value 0.787 (its p-value plays no role in the decision), and
the Jarque-Bera p-value `1 - chi2CDF(jb, 2)` is not clamped. -/
theorem tests_pValue_rejectNull (data : List ℝ)
    (skewness kurtosis mu sigma alpha : ℝ) :
    ((jarqueBeraTest data skewness kurtosis alpha).rejectNull ↔
      (jarqueBeraTest data skewness kurtosis alpha).pValue < alpha) ∧
    (0 ≤ (kolmogorovSmirnovTest data mu sigma alpha).pValue ∧
      (kolmogorovSmirnovTest data mu sigma alpha).pValue ≤ 1) ∧
    ((kolmogorovSmirnovTest data mu sigma alpha).rejectNull ↔
      (kolmogorovSmirnovTest data mu sigma alpha).pValue < alpha) ∧
    (0 ≤ (andersonDarlingTest data mu sigma alpha).pValue ∧
      (andersonDarlingTest data mu sigma alpha).pValue ≤ 1) ∧
    ((andersonDarlingTest data mu sigma alpha).rejectNull ↔
      (andersonDarlingTest data mu sigma alpha).statistic > 0.787) ∧
    ((shapiroWilkTest data alpha).elim True fun t =>
      0 ≤ t.pValue ∧ t.pValue ≤ 1 ∧ (t.rejectNull ↔ t.pValue < alpha)) := by
  refine ⟨Iff.rfl, ⟨le_max_left 0 _, max_le zero_le_one (min_le_left 1 _)⟩, Iff.rfl,
    ⟨le_max_left 0 _, max_le zero_le_one (min_le_left 1 _)⟩, Iff.rfl, ?_⟩
  simp only [shapiroWilkTest]
  split_ifs with hcond
  · trivial
  · exact sw_record_props _ alpha

/-- When the adjusted Anderson-Darling statistic is at least 0.6, the
p-value comes from the fourth branch of the piecewise approximation. -/
lemma ad_pValue_form (data : List ℝ) (mu sigma alpha : ℝ)
    (h : ¬ (andersonDarlingTest data mu sigma alpha).statistic < 0.6) :
    (andersonDarlingTest data mu sigma alpha).pValue =
      max 0 (min 1 (Real.exp (1.2937 -
        5.709 * (andersonDarlingTest data mu sigma alpha).statistic +
        0.0186 * (andersonDarlingTest data mu sigma alpha).statistic *
          (andersonDarlingTest data mu sigma alpha).statistic))) := by
  have h2 : ¬ (andersonDarlingTest data mu sigma alpha).statistic < 0.34 := by
    intro hc
    exact h (by linarith)
  have h1 : ¬ (andersonDarlingTest data mu sigma alpha).statistic < 0.2 := by
    intro hc
    exact h (by linarith)
  simp only [andersonDarlingTest] at h h2 h1 ⊢
  rw [if_neg h1, if_neg h2, if_neg h]

/-- Counterexample to C1 as stated: on the sample `[0]` with `mu = 0`,
`sigma = 1` and significance level `alpha = 10⁻²⁵`, the Anderson-Darling
adjusted statistic is `4·(-1 - ln(0.5000000005·0.4999999995)) ≈ 1.545 >
0.787`, so `rejectNull` holds, while the p-value
`exp(1.2937 - 5.709·A + 0.0186·A²) ≥ exp(-45) > 10⁻²⁵ = alpha`, so
`pValue < alpha` fails: `rejectNull` is not `pValue < alpha`. -/
theorem ad_rejectNull_mismatch :
    (andersonDarlingTest [(0 : ℝ)] 0 1 (1 / 10 ^ 25)).rejectNull ∧
    (andersonDarlingTest [(0 : ℝ)] 0 1 (1 / 10 ^ 25)).alpha = 1 / 10 ^ 25 ∧
    ¬ ((andersonDarlingTest [(0 : ℝ)] 0 1 (1 / 10 ^ 25)).pValue < 1 / 10 ^ 25) := by
  have hcdf : normCDF 0 = 0.5000000005 := by
    have herf : erf 0 = 0.000000001 := by
      unfold erf
      rw [if_pos (le_refl (0 : ℝ)), abs_zero]
      norm_num [Real.exp_zero]
    unfold normCDF
    rw [show (0 : ℝ) / Real.sqrt 2 = 0 by simp, herf]
    norm_num
  have hsort : List.insertionSort (· ≤ ·) [(0 : ℝ)] = [0] := by
    simp [List.insertionSort, List.orderedInsert]
  have hstat : (andersonDarlingTest [(0 : ℝ)] 0 1 (1 / 10 ^ 25)).statistic =
      (-1 - (Real.log 0.5000000005 + Real.log 0.4999999995)) * 4 := by
    simp only [andersonDarlingTest, hsort]
    norm_num [List.range_succ, List.range_zero, hcdf]
  have hprodpos : (0 : ℝ) < 0.5000000005 * 0.4999999995 := by norm_num
  have hmul : Real.log 0.5000000005 + Real.log 0.4999999995 =
      Real.log (0.5000000005 * 0.4999999995) :=
    (Real.log_mul (by norm_num) (by norm_num)).symm
  have hUB : Real.log (0.5000000005 * 0.4999999995) < -1.3862943606 := by
    have h1 : Real.log (0.5000000005 * 0.4999999995) < Real.log (1/4) :=
      Real.log_lt_log hprodpos (by norm_num)
    have h2 : Real.log (1/4 : ℝ) = -(2 * Real.log 2) := by
      rw [show (1/4 : ℝ) = ((4 : ℝ))⁻¹ by norm_num, Real.log_inv,
        show (4 : ℝ) = 2 ^ (2 : ℕ) by norm_num, Real.log_pow]
      push_cast
      ring
    have h3 := Real.log_two_gt_d9
    rw [h2] at h1
    linarith
  have hLB : (1 : ℝ) - 4.00001 ≤ Real.log (0.5000000005 * 0.4999999995) := by
    have hinv : (0 : ℝ) < (0.5000000005 * 0.4999999995)⁻¹ := by positivity
    have h := Real.log_le_sub_one_of_pos hinv
    rw [Real.log_inv] at h
    have hb : ((0.5000000005 * 0.4999999995 : ℝ))⁻¹ ≤ 4.00001 := by norm_num
    linarith
  have hA_lo : (0.787 : ℝ) <
      (-1 - (Real.log 0.5000000005 + Real.log 0.4999999995)) * 4 := by
    rw [hmul]
    nlinarith
  have hA_hi : (-1 - (Real.log 0.5000000005 + Real.log 0.4999999995)) * 4 ≤ 8.1 := by
    rw [hmul]
    nlinarith
  refine ⟨?_, rfl, ?_⟩
  · show (andersonDarlingTest [(0 : ℝ)] 0 1 (1 / 10 ^ 25)).statistic > 0.787
    rw [hstat]
    exact hA_lo
  · have hnot : ¬ (andersonDarlingTest [(0 : ℝ)] 0 1 (1 / 10 ^ 25)).statistic < 0.6 := by
      rw [hstat]
      linarith
    rw [ad_pValue_form [(0 : ℝ)] 0 1 (1 / 10 ^ 25) hnot, hstat]
    set A := (-1 - (Real.log 0.5000000005 + Real.log 0.4999999995)) * 4 with hAdef
    have hq : (-45 : ℝ) ≤ 1.2937 - 5.709 * A + 0.0186 * A * A := by
      nlinarith [hA_lo, hA_hi, sq_nonneg A]
    have hexp : Real.exp (-45) ≤ Real.exp (1.2937 - 5.709 * A + 0.0186 * A * A) :=
      Real.exp_le_exp.mpr hq
    have he45 : Real.exp (-45) > 1 / 10 ^ 25 := by
      have h45 : Real.exp 45 = Real.exp 1 ^ (45 : ℕ) := by
        rw [← Real.exp_nat_mul]
        norm_num
      have hlt : Real.exp 45 < 2.7182818286 ^ (45 : ℕ) := by
        rw [h45]
        exact pow_lt_pow_left₀ Real.exp_one_lt_d9 (le_of_lt (Real.exp_pos 1)) (by norm_num)
      have hbig : (2.7182818286 : ℝ) ^ (45 : ℕ) < 10 ^ 25 := by norm_num
      have hlt2 : Real.exp 45 < 10 ^ 25 := lt_trans hlt hbig
      have hdiv := one_div_lt_one_div_of_lt (Real.exp_pos 45) hlt2
      rw [Real.exp_neg, inv_eq_one_div]
      exact hdiv
    have hmin : 1 / 10 ^ 25 < min 1 (Real.exp (1.2937 - 5.709 * A + 0.0186 * A * A)) := by
      apply lt_min
      · norm_num
      · linarith
    have hmax := lt_of_lt_of_le hmin (le_max_right (0 : ℝ) _)
    linarith
